import Mathlib

/-!
Shallow embedding of the placeholder-extraction-and-fill pipeline of
glr_streamlit_app.py.

Paragraph text is modelled as List Char (one element per Unicode code
point, matching Python str indexing and slicing).  The python-docx
document model is embedded structurally: Document.paragraphs yields the
body paragraphs only (paragraphs inside table cells, headers and footers
are reachable only through the tables / sections API and are kept in
separate fields here); a paragraph is a list of runs, each with its own
character formatting, and the paragraph text property is the
concatenation of the run texts, while assigning to the text property
replaces all runs by a single run with default (inherited) formatting,
as documented by python-docx.
-/

namespace GLR

/-- Whitespace test of Python str.split() with no arguments (ASCII part:
space, tab, newline, carriage return, vertical tab, form feed). -/
def pyIsSpace (c : Char) : Bool :=
  c == ' ' || c == '\t' || c == '\n' || c == '\r' || c == '\x0b' || c == '\x0c'

/-- The two bracket characters of the strip set in word.strip("[]"). -/
def isBr (c : Char) : Bool := c == '[' || c == ']'

/-- Fuel-indexed recursion for pySplit; the fuel is an upper bound on
the length of the remaining input, so the zero-fuel case is reached
only on the empty input. -/
def pySplitF : Nat → List Char → List (List Char)
  | 0, _ => []
  | _ + 1, [] => []
  | n + 1, c :: t =>
    if pyIsSpace c then pySplitF n t
    else (c :: t.takeWhile (fun d => !pyIsSpace d)) :: pySplitF n (t.dropWhile (fun d => !pyIsSpace d))

/-- Python str.split() with no arguments: maximal runs of non-whitespace
characters, runs of whitespace are separators, no empty tokens. -/
def pySplit (s : List Char) : List (List Char) := pySplitF s.length s

/-- Python word.strip("[]"): removes every leading and every trailing
character belonging to the set of bracket characters. -/
def stripBr (t : List Char) : List Char :=
  ((t.dropWhile isBr).reverse.dropWhile isBr).reverse

/-- Python substring containment, the operator (pat in s) on str. -/
def containsSub (pat : List Char) (s : List Char) : Bool :=
  match s with
  | [] => pat.isEmpty
  | c :: t => pat.isPrefixOf (c :: t) || containsSub pat t

/-- Fuel-indexed recursion for replaceAll with a nonempty pattern; the
fuel is an upper bound on the length of the remaining input. -/
def replaceAllF : Nat → List Char → List Char → List Char → List Char
  | 0, _, _, _ => []
  | _ + 1, _, _, [] => []
  | n + 1, pat, rep, c :: t =>
    if pat.isPrefixOf (c :: t)
    then rep ++ replaceAllF n pat rep (t.drop (pat.length - 1))
    else c :: replaceAllF n pat rep t

/-- Python s.replace(pat, rep): replaces every non-overlapping occurrence
of pat, scanning left to right.  (The degenerate empty pattern inserts
rep around every character, as in Python; the program only ever passes
bracketed patterns, which are nonempty.) -/
def replaceAll (pat rep s : List Char) : List Char :=
  match pat with
  | [] => rep ++ (s.map (fun c => c :: rep)).flatten
  | _ :: _ => replaceAllF s.length pat rep s

/-- The scanner loop body of extract_placeholders on the flattened text
of one paragraph: split on whitespace, keep tokens that start with a
left bracket and end with a right bracket, record token.strip("[]"). -/
def scanTokens (t : List Char) : List (List Char) :=
  ((pySplit t).filter (fun w => ['['].isPrefixOf w && [']'].isSuffixOf w)).map stripBr

/-- The f-string f"[\x7bkey\x7d]" of the source: the bracketed form of a key. -/
def bform (k : List Char) : List Char := '[' :: (k ++ [']'])

/-- A docx run: a span of text with one set of character formatting.
fmt = none is the default (inherited) formatting a freshly created run
carries. -/
structure Run where
  text : List Char
  fmt : Option Nat
deriving DecidableEq

/-- A docx paragraph: a list of runs plus paragraph level properties
(style, alignment, ...), opaque here. -/
structure Paragraph where
  runs : List Run
  pPr : Nat
deriving DecidableEq

/-- python-docx paragraph.text getter: concatenation of the run texts. -/
def Paragraph.text (p : Paragraph) : List Char := (p.runs.map Run.text).flatten

/-- python-docx paragraph.text setter: all existing content is replaced
by a single run with default formatting holding the assigned text;
paragraph level properties are kept. -/
def Paragraph.setText (p : Paragraph) (t : List Char) : Paragraph :=
  { runs := [{ text := t, fmt := none }], pPr := p.pPr }

/-- The python-docx document model as used by the script.
Document.paragraphs enumerates bodyParagraphs only; paragraphs inside
table cells, headers and footers are separate, and the styles part is
opaque. -/
structure Docx where
  bodyParagraphs : List Paragraph
  tables : List (List (List Paragraph))
  headers : List Paragraph
  footers : List Paragraph
  styles : Nat
deriving DecidableEq

/-- One iteration of the inner loop of fill_template: for one mapping
entry (key, val), if "[key]" occurs in the current paragraph text,
assign the exhaustively replaced text back to the paragraph. -/
def fillStep (q : Paragraph) (kv : List Char × List Char) : Paragraph :=
  if containsSub (bform kv.1) q.text
  then q.setText (replaceAll (bform kv.1) kv.2 q.text)
  else q

/-- The inner loop of fill_template over the mapping entries, in
iteration (insertion) order, acting on one paragraph. -/
def fillPara (es : List (List Char × List Char)) (p : Paragraph) : Paragraph :=
  es.foldl fillStep p

/-- fill_template: for every body paragraph, for every mapping entry,
replace every occurrence of the bracketed key in the current paragraph
text.  Nothing outside the body paragraphs is touched. -/
def fill_template (d : Docx) (es : List (List Char × List Char)) : Docx :=
  { d with bodyParagraphs := d.bodyParagraphs.map (fillPara es) }

/-- The same fold at the level of plain text, used to reason about the
final text of a paragraph. -/
def fillText (es : List (List Char × List Char)) (t : List Char) : List Char :=
  es.foldl
    (fun acc kv =>
      if containsSub (bform kv.1) acc then replaceAll (bform kv.1) kv.2 acc else acc) t

/-- extract_placeholders: scan the flattened text of every body
paragraph and collect the recorded names into a set (modelled as a
deduplicated list; all claims about it are membership claims). -/
def extract_placeholders (d : Docx) : List (List Char) :=
  ((d.bodyParagraphs.map (fun p => scanTokens p.text)).flatten).dedup

/-- The constant fallback mapping mock_data, in source order. -/
def mock_data : List (List Char × List Char) :=
  [("DATE_LOSS".data, "2024-11-13".data),
   ("INSURED_NAME".data, "Richard Daly".data),
   ("MORTGAGE_CO".data, "Alacrity".data),
   ("INSURED_H_STREET".data, "123 Storm Ln".data),
   ("INSURED_H_CITY".data, "San Antonio".data),
   ("INSURED_H_STATE".data, "TX".data),
   ("INSURED_H_ZIP".data, "78265".data),
   ("DATE_INSPECTED".data, "2024-11-14".data),
   ("TOL_CODE".data, "wind".data),
   ("DATE_RECEIVED".data, "2024-11-15".data),
   ("MORTGAGEE".data, "Alacrity".data)]

/-- A single quote character, used by the Python repr of a list of
strings interpolated into the prompt f-string. -/
def sq : Char := Char.ofNat 39

/-- Python str() of a list of strings, as produced by the f-string
interpolation of the placeholder list (quoting of embedded quotes is
not modelled; placeholder names with quotes render slightly
differently, which no claim depends on). -/
def pyReprStrList (phs : List (List Char)) : List Char :=
  '[' :: (List.intercalate (", ".data) (phs.map (fun s => sq :: (s ++ [sq]))) ++ [']'])

/-- Literal prompt text before the placeholder list. -/
def promptHead : List Char :=
  "\nYou are an insurance claim assistant. Extract values for the following placeholders:\n\n".data

/-- Literal prompt text between the placeholder list and the PDF text. -/
def promptMid : List Char := "\n\nPDF Text:\n\"\"\"\n".data

/-- Literal prompt text after the PDF text. -/
def promptTail : List Char :=
  "\n\"\"\"\n\nReturn ONLY valid JSON. Example:\n\x7b\n  \"DATE_LOSS\": \"2024-11-13\",\n  \"INSURED_NAME\": \"Richard Daly\",\n  \"MORTGAGE_CO\": \"Alacrity Mortgage\",\n  ...\n\x7d\n".data

/-- The prompt built by call_llm: placeholder names and the first 6000
characters of the extracted text spliced into the fixed instruction. -/
def makePrompt (placeholders : List (List Char)) (pdf_text : List Char) : List Char :=
  promptHead ++ pyReprStrList placeholders ++ promptMid ++ pdf_text.take 6000 ++ promptTail

/-- The message object inside a choice of the completion response; the
content field may be missing. -/
structure LlmMessage where
  content : Option (List Char)
deriving DecidableEq

/-- One element of the choices list; the message field may be missing. -/
structure LlmChoice where
  message : Option LlmMessage
deriving DecidableEq

/-- The JSON body of a completion response; the choices field may be
missing. -/
structure RespBody where
  choices : Option (List LlmChoice)
deriving DecidableEq

/-- Outcome of the HTTP exchange performed by requests.post: either a
transport level failure (exception from the client) or a response with
a status code and a body, where body = none models a body that is not
valid JSON (res.json() raises). -/
inductive HttpOutcome where
  | transportError : HttpOutcome
  | response (status : Nat) (body : Option RespBody) : HttpOutcome
deriving DecidableEq

/-- data["choices"][0]["message"]["content"]: each missing level raises
in Python, modelled as none. -/
def extractContent (b : RespBody) : Option (List Char) :=
  match b.choices with
  | none => none
  | some cs =>
    match cs.head? with
    | none => none
    | some c =>
      match c.message with
      | none => none
      | some m => m.content

/-- call_llm: build the prompt, perform one HTTP exchange, check the
status (raise_for_status raises for status 400 and above), decode the
body, extract the completion content and parse it as JSON.  Every
failure is caught and turned into the empty mapping; parse abstracts
json.loads restricted to flat string-to-string objects, with none for
unparseable content. -/
def call_llm (parse : List Char → Option (List (List Char × List Char)))
    (service : List Char → HttpOutcome)
    (pdf_text : List Char) (placeholders : List (List Char)) :
    List (List Char × List Char) :=
  match service (makePrompt placeholders pdf_text) with
  | .transportError => []
  | .response status body =>
    if 400 ≤ status then []
    else
      match body with
      | none => []
      | some b =>
        match extractContent b with
        | none => []
        | some content => (parse content).getD []

/-- The failure conditions named by the spec for one HTTP exchange:
transport failure, non-success status, undecodable body, missing
completion field, or completion content that does not parse as JSON. -/
def outcomeFails (parse : List Char → Option (List (List Char × List Char))) :
    HttpOutcome → Prop
  | .transportError => True
  | .response status body =>
    400 ≤ status ∨ body = none ∨
    (∃ b, body = some b ∧ extractContent b = none) ∨
    (∃ b c, body = some b ∧ extractContent b = some c ∧ parse c = none)

/-- The Process button handler after text extraction: detect
placeholders, call the LLM, fall back to mock_data when the returned
mapping is empty (Python: if not field_values), and fill the template. -/
def runPipeline (parse : List Char → Option (List (List Char × List Char)))
    (service : List Char → HttpOutcome)
    (pdf_text : List Char) (template : Docx) : Docx :=
  let placeholders := extract_placeholders template
  let field_values := call_llm parse service pdf_text placeholders
  let field_values2 := if field_values = [] then mock_data else field_values
  fill_template template field_values2

/-!
Segment decompositions of paragraph text, used to state the regularity
conditions under which the substitution claims hold: a text is split
into plain stretches and placeholder holes.  render is the flattening
back to text; these are specification artifacts, not part of the
program, and every claim theorem relates them back to the program text
through render.
-/

/-- A segment of paragraph text: a plain stretch, or a placeholder hole
with name n that renders as the bracketed form of n. -/
inductive Seg where
  | plain (a : List Char) : Seg
  | hole (n : List Char) : Seg
deriving DecidableEq

/-- Flatten one segment back to text. -/
def renderSeg : Seg → List Char
  | .plain a => a
  | .hole n => bform n

/-- Flatten a segment list back to text. -/
def render (segs : List Seg) : List Char := (segs.map renderSeg).flatten

/-- A stretch of characters free of bracket characters. -/
def brFree (l : List Char) : Bool := l.all (fun c => !isBr c)

/-- Regularity of one segment: plain stretches and hole names carry no
bracket characters, so brackets occur in the rendered text only as hole
delimiters. -/
def segOk : Seg → Bool
  | .plain a => brFree a
  | .hole n => brFree n

/-- Regularity of a decomposition. -/
def segsOk (segs : List Seg) : Bool := segs.all segOk

/-- Effect of one mapping entry on one segment: the hole named by the
key is filled with the plain value, everything else is untouched. -/
def applyEntrySeg (k v : List Char) : Seg → Seg
  | .plain a => .plain a
  | .hole n => if n = k then .plain v else .hole n

/-- Effect of a full entry list, in iteration order, on a decomposition. -/
def applySegs (es : List (List Char × List Char)) (segs : List Seg) : List Seg :=
  es.foldl (fun ss kv => ss.map (applyEntrySeg kv.1 kv.2)) segs

/-- Effect of a full entry list on a single segment. -/
def applyAllSeg (es : List (List Char × List Char)) (s : Seg) : Seg :=
  es.foldl (fun x kv => applyEntrySeg kv.1 kv.2 x) s

/-- First-match association list lookup, the effective semantics of one
dict key under the fill loop. -/
def lookupKV (n : List Char) : List (List Char × List Char) → Option (List Char)
  | [] => none
  | kv :: rest => if kv.1 = n then some kv.2 else lookupKV n rest

/-- Regularity of one mapping entry: key and value are bracket free. -/
def entryOk (kv : List Char × List Char) : Bool := brFree kv.1 && brFree kv.2

/-- Regularity of a mapping. -/
def entriesOk (es : List (List Char × List Char)) : Bool := es.all entryOk

/-- A stretch of characters free of whitespace. -/
def wsFree (l : List Char) : Bool := l.all (fun c => !pyIsSpace c)

/-- Regularity of one segment for scanner claims: additionally hole
names are nonempty and whitespace free, so a rendered hole is a single
whitespace-delimited token. -/
def segScanOk : Seg → Bool
  | .plain a => brFree a
  | .hole n => !n.isEmpty && brFree n && wsFree n

/-- Does the stretch start with a whitespace character. -/
def startsWs (a : List Char) : Bool :=
  match a with
  | [] => false
  | c :: _ => pyIsSpace c

/-- Does the stretch end with a whitespace character. -/
def endsWs (a : List Char) : Bool := startsWs a.reverse

/-- Token isolation of a decomposition: every hole is separated from
its neighbours by whitespace (and plain stretches are merged), so each
hole is a whitespace-delimited token of the rendered text. -/
def isolated : List Seg → Bool
  | [] => true
  | [_] => true
  | .plain a :: .hole n :: rest => endsWs a && isolated (.hole n :: rest)
  | .hole _ :: .plain a :: rest => startsWs a && isolated (.plain a :: rest)
  | .plain _ :: .plain _ :: _ => false
  | .hole _ :: .hole _ :: _ => false

/-- Combined regularity for scanner claims. -/
def scanWf (segs : List Seg) : Bool := segs.all segScanOk && isolated segs

/-!
Fuel irrelevance and the recursion equations of pySplit and replaceAll.
-/

theorem pySplitF_eq_len :
    ∀ n : Nat, ∀ s : List Char, s.length ≤ n → pySplitF n s = pySplitF s.length s := by
  intro n
  induction n using Nat.strong_induction_on with
  | _ n ih =>
    intro s hs
    match n, s with
    | 0, [] => rfl
    | _ + 1, [] => rfl
    | n + 1, c :: t =>
      simp only [List.length_cons] at hs
      have ht : t.length ≤ n := Nat.lt_succ_iff.mp (Nat.lt_of_lt_of_le (Nat.lt_succ_self _) hs)
      by_cases h : pyIsSpace c
      · simp only [pySplitF, h, if_true, List.length_cons]
        rw [ih n (Nat.lt_succ_self n) t ht]
      · have hd : (t.dropWhile (fun d => !pyIsSpace d)).length ≤ t.length :=
          (List.dropWhile_sublist _).length_le
        simp only [pySplitF, h, if_false, List.length_cons, Bool.false_eq_true]
        rw [ih n (Nat.lt_succ_self n) _ (Nat.le_trans hd ht),
          ih t.length (Nat.lt_succ_of_le ht) _ hd]

theorem pySplit_ws {c : Char} (t : List Char) (h : pyIsSpace c = true) :
    pySplit (c :: t) = pySplit t := by
  simp only [pySplit, List.length_cons, pySplitF, h, if_true]

theorem pySplit_tok {c : Char} (t : List Char) (h : pyIsSpace c = false) :
    pySplit (c :: t) =
      (c :: t.takeWhile (fun d => !pyIsSpace d)) ::
        pySplit (t.dropWhile (fun d => !pyIsSpace d)) := by
  simp only [pySplit, List.length_cons, pySplitF, h, Bool.false_eq_true, if_false]
  rw [pySplitF_eq_len t.length _ (List.dropWhile_sublist _).length_le]

theorem replaceAllF_eq_len :
    ∀ n : Nat, ∀ pat rep s : List Char, s.length ≤ n →
      replaceAllF n pat rep s = replaceAllF s.length pat rep s := by
  intro n
  induction n using Nat.strong_induction_on with
  | _ n ih =>
    intro pat rep s hs
    match n, s with
    | 0, [] => rfl
    | _ + 1, [] => rfl
    | n + 1, c :: t =>
      simp only [List.length_cons] at hs
      have ht : t.length ≤ n := Nat.lt_succ_iff.mp (Nat.lt_of_lt_of_le (Nat.lt_succ_self _) hs)
      by_cases h : pat.isPrefixOf (c :: t)
      · have hd : (t.drop (pat.length - 1)).length ≤ t.length := by
          rw [List.length_drop]; omega
        simp only [replaceAllF, h, if_true, List.length_cons]
        rw [ih n (Nat.lt_succ_self n) _ _ _ (Nat.le_trans hd ht),
          ih t.length (Nat.lt_succ_of_le ht) _ _ _ hd]
      · simp only [replaceAllF, h, Bool.false_eq_true, if_false, List.length_cons]
        rw [ih n (Nat.lt_succ_self n) _ _ t ht]

theorem replaceAll_cons_pos {p c : Char} {ps t : List Char} (rep : List Char)
    (h : (p :: ps).isPrefixOf (c :: t) = true) :
    replaceAll (p :: ps) rep (c :: t) =
      rep ++ replaceAll (p :: ps) rep (t.drop ps.length) := by
  simp only [replaceAll, List.length_cons, replaceAllF, h, if_true, List.length_cons,
    Nat.add_sub_cancel]
  rw [replaceAllF_eq_len t.length _ _ _ (by rw [List.length_drop]; omega)]

theorem replaceAll_cons_neg {p c : Char} {ps t : List Char} (rep : List Char)
    (h : (p :: ps).isPrefixOf (c :: t) = false) :
    replaceAll (p :: ps) rep (c :: t) = c :: replaceAll (p :: ps) rep t := by
  simp only [replaceAll, List.length_cons, replaceAllF, h, Bool.false_eq_true, if_false]

/-!
Structure of replaceAll and containsSub on bracket-regular text.
-/

theorem isBr_false_iff {c : Char} : isBr c = false ↔ c ≠ '[' ∧ c ≠ ']' := by
  simp [isBr, not_or]

theorem brFree_cons {c : Char} {a : List Char} :
    brFree (c :: a) = true ↔ (c ≠ '[' ∧ c ≠ ']') ∧ brFree a = true := by
  simp [brFree, ← isBr_false_iff]

theorem bform_ne_nil (k : List Char) : bform k = '[' :: (k ++ [']']) := rfl

theorem replaceAll_bform_nil (k v : List Char) : replaceAll (bform k) v [] = [] := rfl

theorem replaceAll_cons_not_lb {c : Char} {k : List Char} (v : List Char) (t : List Char)
    (hc : c ≠ '[') :
    replaceAll (bform k) v (c :: t) = c :: replaceAll (bform k) v t := by
  refine replaceAll_cons_neg v ?_
  rw [Bool.eq_false_iff]
  intro hb
  rw [List.isPrefixOf_iff_prefix, List.cons_prefix_cons] at hb
  exact hc hb.1.symm

theorem replaceAll_brFree_append {a : List Char} (k v : List Char) (ha : brFree a = true)
    (x : List Char) :
    replaceAll (bform k) v (a ++ x) = a ++ replaceAll (bform k) v x := by
  induction a with
  | nil => rfl
  | cons c a ih =>
    have hc := (brFree_cons.mp ha).1.1
    have ha2 := (brFree_cons.mp ha).2
    rw [List.cons_append, replaceAll_cons_not_lb v _ hc, ih ha2, List.cons_append]

theorem replaceAll_bform_self (k v x : List Char) :
    replaceAll (bform k) v (bform k ++ x) = v ++ replaceAll (bform k) v x := by
  have h : (('[' :: (k ++ [']'])).isPrefixOf ('[' :: ((k ++ [']']) ++ x))) = true := by
    rw [List.isPrefixOf_iff_prefix, List.cons_prefix_cons]
    exact ⟨rfl, List.prefix_append _ _⟩
  have := @replaceAll_cons_pos '[' '[' (k ++ [']']) ((k ++ [']']) ++ x) v h
  rw [List.drop_left] at this
  simpa [bform, List.append_assoc] using this

theorem key_ne_not_prefix {k n : List Char} (hk : brFree k = true) (hn : brFree n = true)
    (hne : k ≠ n) (x : List Char) : ¬ (k ++ [']']) <+: (n ++ (']' :: x)) := by
  induction k generalizing n with
  | nil =>
    cases n with
    | nil => exact absurd rfl hne
    | cons b n =>
      intro hp
      rw [List.nil_append, List.cons_append, List.cons_prefix_cons] at hp
      exact (brFree_cons.mp hn).1.2 hp.1.symm
  | cons a k ih =>
    cases n with
    | nil =>
      intro hp
      rw [List.cons_append, List.nil_append, List.cons_prefix_cons] at hp
      exact (brFree_cons.mp hk).1.2 hp.1
    | cons b n =>
      intro hp
      rw [List.cons_append, List.cons_append, List.cons_prefix_cons] at hp
      rcases hp with ⟨hab, hp⟩
      subst hab
      have hne2 : k ≠ n := fun hkn => hne (by rw [hkn])
      exact ih (brFree_cons.mp hk).2 (brFree_cons.mp hn).2 hne2 hp

theorem bform_not_prefix_hole {k n : List Char} (hk : brFree k = true) (hn : brFree n = true)
    (hne : k ≠ n) (x : List Char) :
    (bform k).isPrefixOf (bform n ++ x) = false := by
  rw [Bool.eq_false_iff]
  intro hb
  rw [List.isPrefixOf_iff_prefix] at hb
  rw [bform_ne_nil, bform_ne_nil, List.cons_append, List.cons_prefix_cons,
    List.append_assoc, List.singleton_append] at hb
  exact key_ne_not_prefix hk hn hne x hb.2

theorem replaceAll_bform_cons_neg {k : List Char} {c : Char} {t : List Char} (v : List Char)
    (hb : (bform k).isPrefixOf (c :: t) = false) :
    replaceAll (bform k) v (c :: t) = c :: replaceAll (bform k) v t := by
  have h := @replaceAll_cons_neg '[' c (k ++ [']']) t v
    (by rw [← bform_ne_nil]; exact hb)
  rwa [← bform_ne_nil] at h

theorem replaceAll_hole_ne {k n : List Char} (v : List Char) (hk : brFree k = true)
    (hn : brFree n = true) (hne : k ≠ n) (x : List Char) :
    replaceAll (bform k) v (bform n ++ x) = bform n ++ replaceAll (bform k) v x := by
  have h0 : bform n ++ x = '[' :: (n ++ (']' :: x)) := by
    rw [bform_ne_nil, List.cons_append, List.append_assoc, List.singleton_append]
  rw [h0, replaceAll_bform_cons_neg v (by
    have hb := bform_not_prefix_hole hk hn hne x
    rwa [h0] at hb)]
  rw [replaceAll_brFree_append k v hn, replaceAll_cons_not_lb v x (by decide)]
  simp [bform]

theorem containsSub_cons {pat c t} :
    containsSub pat (c :: t) = (pat.isPrefixOf (c :: t) || containsSub pat t) := rfl

theorem containsSub_brFree_append {a : List Char} (k : List Char) (ha : brFree a = true)
    (x : List Char) : containsSub (bform k) (a ++ x) = containsSub (bform k) x := by
  induction a with
  | nil => rfl
  | cons c a ih =>
    have hc := (brFree_cons.mp ha).1.1
    rw [List.cons_append, containsSub_cons, ih (brFree_cons.mp ha).2]
    have hp : (bform k).isPrefixOf (c :: (a ++ x)) = false := by
      rw [Bool.eq_false_iff]
      intro hb
      rw [bform_ne_nil, List.isPrefixOf_iff_prefix, List.cons_prefix_cons] at hb
      exact hc hb.1.symm
    rw [hp, Bool.false_or]

theorem containsSub_hole_ne {k n : List Char} (hk : brFree k = true) (hn : brFree n = true)
    (hne : k ≠ n) (x : List Char) :
    containsSub (bform k) (bform n ++ x) = containsSub (bform k) x := by
  have h0 : bform n ++ x = '[' :: (n ++ (']' :: x)) := by
    rw [bform_ne_nil, List.cons_append, List.append_assoc, List.singleton_append]
  rw [h0, containsSub_cons]
  have hp := bform_not_prefix_hole hk hn hne x
  rw [h0] at hp
  rw [hp, Bool.false_or, containsSub_brFree_append k hn, containsSub_cons]
  have hp2 : (bform k).isPrefixOf (']' :: x) = false := by
    rw [Bool.eq_false_iff]
    intro hb
    rw [bform_ne_nil, List.isPrefixOf_iff_prefix, List.cons_prefix_cons] at hb
    exact absurd hb.1 (by decide)
  rw [hp2, Bool.false_or]

theorem containsSub_bform_self (k x : List Char) :
    containsSub (bform k) (bform k ++ x) = true := by
  have h0 : bform k ++ x = '[' :: ((k ++ [']']) ++ x) := by
    rw [bform_ne_nil, List.cons_append]
  rw [h0, containsSub_cons, Bool.or_eq_true]
  left
  rw [List.isPrefixOf_iff_prefix]
  have : bform k <+: bform k ++ x := List.prefix_append _ _
  rwa [h0, bform_ne_nil] at this

theorem segsOk_cons {s : Seg} {segs : List Seg} :
    segsOk (s :: segs) = true ↔ segOk s = true ∧ segsOk segs = true := by
  simp [segsOk]

theorem render_cons {s : Seg} {segs : List Seg} :
    render (s :: segs) = renderSeg s ++ render segs := by
  simp [render]

theorem containsSub_render {k : List Char} {segs : List Seg} (hk : brFree k = true)
    (hs : segsOk segs = true) :
    containsSub (bform k) (render segs) = true ↔ Seg.hole k ∈ segs := by
  induction segs with
  | nil =>
    constructor
    · intro h
      rw [show render [] = [] from rfl] at h
      simp [containsSub, bform] at h
    · intro h
      simp at h
  | cons s rest ih =>
    have hok := (segsOk_cons.mp hs).1
    have hrest := (segsOk_cons.mp hs).2
    rw [render_cons]
    cases s with
    | plain a =>
      rw [show renderSeg (Seg.plain a) = a from rfl,
        containsSub_brFree_append k hok, ih hrest]
      simp
    | hole n =>
      rw [show renderSeg (Seg.hole n) = bform n from rfl]
      by_cases hkn : k = n
      · subst hkn
        rw [containsSub_bform_self]
        simp
      · rw [containsSub_hole_ne hk hok hkn, ih hrest]
        simp [Seg.hole.injEq, hkn]

theorem replaceAll_of_not_containsSub {pat rep s : List Char}
    (h : containsSub pat s = false) : replaceAll pat rep s = s := by
  induction s with
  | nil =>
    cases pat with
    | nil => simp [containsSub, List.isEmpty] at h
    | cons p ps => rfl
  | cons c t ih =>
    rw [containsSub_cons, Bool.or_eq_false_iff] at h
    cases pat with
    | nil =>
      rw [show ([] : List Char).isPrefixOf (c :: t) = true from rfl] at h
      exact absurd h.1 (by decide)
    | cons p ps =>
      rw [replaceAll_cons_neg rep h.1, ih h.2]

/-!
The single-pass semantics of fill: on a bracket-regular decomposition,
one exhaustive replace of a bracketed key fills exactly the holes with
that name, and the full fold fills each hole according to the first
matching entry.
-/

theorem replaceAll_render {k : List Char} {segs : List Seg} (v : List Char)
    (hk : brFree k = true) (hs : segsOk segs = true) :
    replaceAll (bform k) v (render segs) = render (segs.map (applyEntrySeg k v)) := by
  induction segs with
  | nil => exact replaceAll_bform_nil k v
  | cons s rest ih =>
    have hok := (segsOk_cons.mp hs).1
    have hrest := (segsOk_cons.mp hs).2
    rw [render_cons, List.map_cons, render_cons]
    cases s with
    | plain a =>
      rw [show renderSeg (Seg.plain a) = a from rfl,
        replaceAll_brFree_append k v hok, ih hrest]
      rfl
    | hole n =>
      rw [show renderSeg (Seg.hole n) = bform n from rfl]
      by_cases hkn : n = k
      · subst hkn
        rw [replaceAll_bform_self, ih hrest]
        simp [applyEntrySeg, renderSeg]
      · rw [replaceAll_hole_ne v hk hok (fun h => hkn h.symm), ih hrest]
        simp [applyEntrySeg, hkn, renderSeg]

theorem segsOk_map_applyEntrySeg {segs : List Seg} {k v : List Char}
    (hs : segsOk segs = true) (hv : brFree v = true) :
    segsOk (segs.map (applyEntrySeg k v)) = true := by
  induction segs with
  | nil => rfl
  | cons s rest ih =>
    rw [List.map_cons, segsOk_cons]
    refine ⟨?_, ih (segsOk_cons.mp hs).2⟩
    cases s with
    | plain a => exact (segsOk_cons.mp hs).1
    | hole n =>
      by_cases hkn : n = k
      · simp only [applyEntrySeg, hkn, if_true]
        exact hv
      · simp only [applyEntrySeg, hkn, if_false]
        exact (segsOk_cons.mp hs).1

theorem fillText_nil (t : List Char) : fillText [] t = t := rfl

theorem fillText_cons (kv : List Char × List Char) (es : List (List Char × List Char))
    (t : List Char) :
    fillText (kv :: es) t =
      fillText es
        (if containsSub (bform kv.1) t then replaceAll (bform kv.1) kv.2 t else t) := rfl

theorem fillText_step_eq (k v t : List Char) :
    (if containsSub (bform k) t then replaceAll (bform k) v t else t) =
      replaceAll (bform k) v t := by
  by_cases h : containsSub (bform k) t
  · rw [if_pos h]
  · rw [if_neg h, replaceAll_of_not_containsSub (Bool.not_eq_true _ ▸ h)]

theorem entriesOk_cons {kv : List Char × List Char} {es : List (List Char × List Char)} :
    entriesOk (kv :: es) = true ↔ entryOk kv = true ∧ entriesOk es = true := by
  simp [entriesOk]

theorem fillText_render {segs : List Seg} {es : List (List Char × List Char)}
    (hs : segsOk segs = true) (he : entriesOk es = true) :
    fillText es (render segs) = render (applySegs es segs) := by
  induction es generalizing segs with
  | nil => rfl
  | cons kv rest ih =>
    have hkv := (entriesOk_cons.mp he).1
    have hrest := (entriesOk_cons.mp he).2
    have hk : brFree kv.1 = true := by
      simp [entryOk] at hkv
      exact hkv.1
    have hv : brFree kv.2 = true := by
      simp [entryOk] at hkv
      exact hkv.2
    rw [fillText_cons, fillText_step_eq, replaceAll_render kv.2 hk hs,
      ih (segsOk_map_applyEntrySeg hs hv) hrest]
    rfl

theorem applySegs_eq_map (es : List (List Char × List Char)) (segs : List Seg) :
    applySegs es segs = segs.map (applyAllSeg es) := by
  induction es generalizing segs with
  | nil =>
    show segs = segs.map (applyAllSeg [])
    rw [show applyAllSeg [] = fun s => s from rfl, List.map_id']
  | cons kv rest ih =>
    show applySegs rest (segs.map (applyEntrySeg kv.1 kv.2)) = _
    rw [ih, List.map_map]
    rfl

theorem applyAllSeg_plain (es : List (List Char × List Char)) (a : List Char) :
    applyAllSeg es (Seg.plain a) = Seg.plain a := by
  induction es with
  | nil => rfl
  | cons kv rest ih => exact ih

theorem applyAllSeg_hole (es : List (List Char × List Char)) (n : List Char) :
    applyAllSeg es (Seg.hole n) =
      (match lookupKV n es with
       | some v => Seg.plain v
       | none => Seg.hole n) := by
  induction es with
  | nil => rfl
  | cons kv rest ih =>
    show applyAllSeg rest (applyEntrySeg kv.1 kv.2 (Seg.hole n)) = _
    by_cases h : kv.1 = n
    · simp only [applyEntrySeg, h, if_true, lookupKV]
      exact applyAllSeg_plain rest kv.2
    · have h2 : ¬ n = kv.1 := fun hn => h hn.symm
      simp only [applyEntrySeg, h2, if_false, lookupKV, h]
      exact ih

theorem lookupKV_perm {es es2 : List (List Char × List Char)} (h : es.Perm es2)
    (hnd : (es.map Prod.fst).Nodup) (n : List Char) : lookupKV n es = lookupKV n es2 := by
  induction h with
  | nil => rfl
  | cons kv htl ih =>
    simp only [List.map_cons, List.nodup_cons] at hnd
    simp only [lookupKV]
    by_cases hv : kv.1 = n
    · rw [if_pos hv, if_pos hv]
    · rw [if_neg hv, if_neg hv, ih hnd.2]
  | swap kv1 kv2 l =>
    have hne : kv2.1 ≠ kv1.1 := by
      simp only [List.map_cons, List.nodup_cons, List.mem_cons] at hnd
      exact fun hcontra => hnd.1 (Or.inl hcontra)
    by_cases h2 : kv2.1 = n <;> by_cases h1 : kv1.1 = n
    · exact absurd (h2.trans h1.symm) hne
    · simp [lookupKV, h1, h2]
    · simp [lookupKV, h1, h2]
    · simp [lookupKV, h1, h2]
  | trans h1 h2 ih1 ih2 =>
    rw [ih1 hnd, ih2 ((h1.map Prod.fst).nodup hnd)]

theorem entriesOk_perm {es es2 : List (List Char × List Char)} (h : es.Perm es2)
    (he : entriesOk es = true) : entriesOk es2 = true := by
  rw [entriesOk, List.all_eq_true] at he ⊢
  exact fun kv hkv => he kv (h.mem_iff.mpr hkv)

theorem applyAllSeg_perm {es es2 : List (List Char × List Char)} (h : es.Perm es2)
    (hnd : (es.map Prod.fst).Nodup) (s : Seg) : applyAllSeg es s = applyAllSeg es2 s := by
  cases s with
  | plain a => rw [applyAllSeg_plain, applyAllSeg_plain]
  | hole n => rw [applyAllSeg_hole, applyAllSeg_hole, lookupKV_perm h hnd n]

theorem fillText_perm {segs : List Seg} {es es2 : List (List Char × List Char)}
    (hperm : es.Perm es2) (hnd : (es.map Prod.fst).Nodup)
    (hs : segsOk segs = true) (he : entriesOk es = true) :
    fillText es (render segs) = fillText es2 (render segs) := by
  rw [fillText_render hs he, fillText_render hs (entriesOk_perm hperm he),
    applySegs_eq_map, applySegs_eq_map]
  exact congrArg render (List.map_congr_left fun s _ => applyAllSeg_perm hperm hnd s)

/-!
Paragraph and document level behaviour of the fill loop.
-/

theorem Paragraph.text_setText (p : Paragraph) (t : List Char) :
    (p.setText t).text = t := by
  simp [Paragraph.setText, Paragraph.text]

theorem fillStep_text (q : Paragraph) (kv : List Char × List Char) :
    (fillStep q kv).text =
      (if containsSub (bform kv.1) q.text
       then replaceAll (bform kv.1) kv.2 q.text else q.text) := by
  by_cases h : containsSub (bform kv.1) q.text
  · simp [fillStep, h, Paragraph.text_setText]
  · simp [fillStep, h]

theorem fillPara_text (es : List (List Char × List Char)) (p : Paragraph) :
    (fillPara es p).text = fillText es p.text := by
  induction es generalizing p with
  | nil => rfl
  | cons kv rest ih =>
    show (fillPara rest (fillStep p kv)).text = _
    rw [ih, fillText_cons, fillStep_text]

theorem fillStep_pPr (q : Paragraph) (kv : List Char × List Char) :
    (fillStep q kv).pPr = q.pPr := by
  by_cases h : containsSub (bform kv.1) q.text
  · simp [fillStep, h, Paragraph.setText]
  · simp [fillStep, h]

theorem fillPara_pPr (es : List (List Char × List Char)) (p : Paragraph) :
    (fillPara es p).pPr = p.pPr := by
  induction es generalizing p with
  | nil => rfl
  | cons kv rest ih =>
    show (fillPara rest (fillStep p kv)).pPr = _
    rw [ih, fillStep_pPr]

theorem fillPara_of_no_match {es : List (List Char × List Char)} {p : Paragraph}
    (h : ∀ kv ∈ es, containsSub (bform kv.1) p.text = false) : fillPara es p = p := by
  induction es with
  | nil => rfl
  | cons kv rest ih =>
    show fillPara rest (fillStep p kv) = p
    have hstep : fillStep p kv = p := by
      simp [fillStep, h kv (List.mem_cons_self kv rest)]
    rw [hstep]
    exact ih fun kv2 hkv2 => h kv2 (List.mem_cons_of_mem kv hkv2)

theorem hole_mem_applySegs {es : List (List Char × List Char)} {segs : List Seg}
    {m : List Char} (h : Seg.hole m ∈ applySegs es segs) : Seg.hole m ∈ segs := by
  induction es generalizing segs with
  | nil => exact h
  | cons kv rest ih =>
    have h2 : Seg.hole m ∈ segs.map (applyEntrySeg kv.1 kv.2) := ih h
    rcases List.mem_map.mp h2 with ⟨s, hs, hmap⟩
    cases s with
    | plain a => exact absurd hmap (by simp [applyEntrySeg])
    | hole n =>
      by_cases hn : n = kv.1
      · rw [applyEntrySeg, if_pos hn] at hmap
        exact absurd hmap (by simp)
      · rw [applyEntrySeg, if_neg hn] at hmap
        have hmn : n = m := by
          injection hmap
        rw [← hmn]
        exact hs

theorem lookupKV_eq_none {n : List Char} {es : List (List Char × List Char)}
    (h : n ∉ es.map Prod.fst) : lookupKV n es = none := by
  induction es with
  | nil => rfl
  | cons kv rest ih =>
    simp only [List.map_cons, List.mem_cons, not_or] at h
    rw [lookupKV, if_neg (fun hc => h.1 hc.symm)]
    exact ih h.2

/-!
Behaviour of the whitespace tokenizer on isolated decompositions.
-/

theorem wsFree_mem {x : List Char} (hx : wsFree x = true) {c : Char} (hc : c ∈ x) :
    pyIsSpace c = false := by
  rw [wsFree, List.all_eq_true] at hx
  simpa using hx c hc

theorem pySplit_wsFree_append {x : List Char} (hx : wsFree x = true) (hne : x ≠ [])
    {w : Char} (hw : pyIsSpace w = true) (y : List Char) :
    pySplit (x ++ w :: y) = x :: pySplit y := by
  cases x with
  | nil => exact absurd rfl hne
  | cons c x =>
    have hc : pyIsSpace c = false := wsFree_mem hx (List.mem_cons_self c x)
    have hx2 : ∀ a ∈ x, (fun d => !pyIsSpace d) a = true := by
      intro a ha
      simp [wsFree_mem hx (List.mem_cons_of_mem c ha)]
    rw [List.cons_append, pySplit_tok _ hc,
      List.takeWhile_append_of_pos hx2, List.dropWhile_append_of_pos hx2,
      List.takeWhile_cons_of_neg (by simp [hw]),
      List.dropWhile_cons_of_neg (by simp [hw]),
      List.append_nil, pySplit_ws _ hw]

theorem pySplit_wsFree {x : List Char} (hx : wsFree x = true) (hne : x ≠ []) :
    pySplit x = [x] := by
  cases x with
  | nil => exact absurd rfl hne
  | cons c x =>
    have hc : pyIsSpace c = false := wsFree_mem hx (List.mem_cons_self c x)
    have hx2 : ∀ a ∈ x, (fun d => !pyIsSpace d) a = true := by
      intro a ha
      simp [wsFree_mem hx (List.mem_cons_of_mem c ha)]
    rw [pySplit_tok _ hc, List.takeWhile_eq_self_iff.mpr hx2,
      List.dropWhile_eq_nil_iff.mpr hx2]
    rfl

theorem startsWs_append {a : List Char} (hne : a ≠ []) (b : List Char) :
    startsWs (a ++ b) = startsWs a := by
  cases a with
  | nil => exact absurd rfl hne
  | cons c t => rfl

theorem endsWs_cons {c : Char} {t : List Char} (hne : t ≠ []) :
    endsWs (c :: t) = endsWs t := by
  rw [endsWs, endsWs, List.reverse_cons,
    startsWs_append (fun h => hne (List.reverse_eq_nil_iff.mp h)) [c]]

theorem endsWs_append {b : List Char} (a : List Char) (hne : b ≠ []) :
    endsWs (a ++ b) = endsWs b := by
  rw [endsWs, endsWs, List.reverse_append,
    startsWs_append (fun h => hne (List.reverse_eq_nil_iff.mp h))]

theorem endsWs_exists_ws {t : List Char} (h : endsWs t = true) :
    ∃ c ∈ t, pyIsSpace c = true := by
  rw [endsWs] at h
  rcases hrev : t.reverse with _ | ⟨c, r⟩
  · rw [hrev] at h
    exact absurd h (by simp [startsWs])
  · rw [hrev] at h
    rw [startsWs] at h
    refine ⟨c, ?_, h⟩
    rw [← List.mem_reverse, hrev]
    exact List.mem_cons_self c r

theorem pySplit_append_of_endsWs :
    ∀ n : Nat, ∀ s : List Char, s.length ≤ n → endsWs s = true →
      ∀ X, pySplit (s ++ X) = pySplit s ++ pySplit X := by
  intro n
  induction n using Nat.strong_induction_on with
  | _ n ih =>
    intro s hs hws X
    match s, hs with
    | [], _ => exact absurd hws (by simp [endsWs, startsWs])
    | c :: t, hs =>
      simp only [List.length_cons] at hs
      have hn1 : 1 ≤ n := Nat.le_trans (Nat.le_add_left 1 t.length) hs
      by_cases hc : pyIsSpace c
      · rcases ht : t with _ | ⟨d, t2⟩
        · rw [List.cons_append, List.nil_append, pySplit_ws _ hc, pySplit_ws _ hc]
          rfl
        · rw [← ht]
          have htne : t ≠ [] := by rw [ht]; exact List.cons_ne_nil d t2
          have hws2 : endsWs t = true := by rw [← endsWs_cons (c := c) htne]; exact hws
          rw [List.cons_append, pySplit_ws _ hc, pySplit_ws _ hc]
          exact ih t.length (Nat.lt_of_lt_of_le (Nat.lt_succ_self _) hs) t le_rfl hws2 X
      · have hc2 : pyIsSpace c = false := Bool.not_eq_true _ ▸ hc
        have htne : t ≠ [] := by
          intro hnil
          rw [hnil] at hws
          rw [show endsWs [c] = pyIsSpace c from rfl, hc2] at hws
          exact Bool.false_ne_true hws
        have hws2 : endsWs t = true := by rw [← endsWs_cons (c := c) htne]; exact hws
        rcases endsWs_exists_ws hws2 with ⟨w, hwmem, hwsp⟩
        have hnotall : ¬ ∀ a ∈ t, (fun d => !pyIsSpace d) a = true := by
          intro hall
          have := hall w hwmem
          simp [hwsp] at this
        have htake : (t ++ X).takeWhile (fun d => !pyIsSpace d) =
            t.takeWhile (fun d => !pyIsSpace d) := by
          rw [List.takeWhile_append]
          rw [if_neg (fun hlen => hnotall (List.takeWhile_eq_self_iff.mp
            ((List.takeWhile_sublist _).eq_of_length hlen)))]
        have hdropne : t.dropWhile (fun d => !pyIsSpace d) ≠ [] := by
          intro hnil
          exact hnotall (List.dropWhile_eq_nil_iff.mp hnil)
        have hdrop : (t ++ X).dropWhile (fun d => !pyIsSpace d) =
            t.dropWhile (fun d => !pyIsSpace d) ++ X := by
          rw [List.dropWhile_append, if_neg (by simpa using hdropne)]
        rw [List.cons_append, pySplit_tok _ hc2, pySplit_tok _ hc2, htake, hdrop]
        have hws3 : endsWs (t.dropWhile (fun d => !pyIsSpace d)) = true := by
          have hsplit := List.takeWhile_append_dropWhile (fun d => !pyIsSpace d) t
          calc endsWs (t.dropWhile (fun d => !pyIsSpace d))
              = endsWs (t.takeWhile (fun d => !pyIsSpace d) ++
                  t.dropWhile (fun d => !pyIsSpace d)) :=
                (endsWs_append _ hdropne).symm
            _ = endsWs t := by rw [hsplit]
            _ = true := hws2
        have hlen2 : (t.dropWhile (fun d => !pyIsSpace d)).length ≤ t.length :=
          (List.dropWhile_sublist _).length_le
        rw [ih t.length (Nat.lt_of_lt_of_le (Nat.lt_succ_self _) hs) _ hlen2 hws3 X]
        rfl

theorem pySplit_append_endsWs {s : List Char} (hws : endsWs s = true) (X : List Char) :
    pySplit (s ++ X) = pySplit s ++ pySplit X :=
  pySplit_append_of_endsWs s.length s le_rfl hws X

/-!
The scanner on bracket-regular isolated text.
-/

theorem brFree_of_mem {l : List Char} (h : brFree l = true) {c : Char} (hc : c ∈ l) :
    isBr c = false := by
  rw [brFree, List.all_eq_true] at h
  simpa using h c hc

theorem dropWhile_isBr_of_brFree {l : List Char} (h : brFree l = true) :
    l.dropWhile isBr = l := by
  cases l with
  | nil => rfl
  | cons c t =>
    exact List.dropWhile_cons_of_neg (by
      simp [brFree_of_mem h (List.mem_cons_self c t)])

theorem brFree_reverse {l : List Char} (h : brFree l = true) : brFree l.reverse = true := by
  rw [brFree, List.all_eq_true] at h ⊢
  exact fun c hc => h c (List.mem_reverse.mp hc)

theorem stripBr_bform {n : List Char} (hne : n ≠ []) (hbr : brFree n = true) :
    stripBr (bform n) = n := by
  cases n with
  | nil => exact absurd rfl hne
  | cons c n2 =>
    have hc : isBr c = false := brFree_of_mem hbr (List.mem_cons_self c n2)
    rw [stripBr, bform_ne_nil, List.dropWhile_cons_of_pos (by simp [isBr]),
      List.cons_append, List.dropWhile_cons_of_neg (by simp [hc]),
      ← List.cons_append, List.reverse_append,
      show ([']'] : List Char).reverse = [']'] from rfl, List.singleton_append,
      List.dropWhile_cons_of_pos (by simp [isBr])]
    rcases hrev : (c :: n2).reverse with _ | ⟨d, r⟩
    · exact absurd hrev (by simp)
    · have hd : isBr d = false := by
        refine brFree_of_mem hbr ?_
        rw [← List.mem_reverse, hrev]
        exact List.mem_cons_self d r
      rw [List.dropWhile_cons_of_neg (by simp [hd]), ← hrev, List.reverse_reverse]

theorem token_cond_false {c : Char} (hc : c ≠ '[') (tk : List Char) :
    (['['].isPrefixOf (c :: tk) && [']'].isSuffixOf (c :: tk)) = false := by
  have h1 : ['['].isPrefixOf (c :: tk) = false := by
    rw [Bool.eq_false_iff]
    intro hb
    rw [List.isPrefixOf_iff_prefix, List.cons_prefix_cons] at hb
    exact hc hb.1.symm
  rw [h1, Bool.false_and]

theorem token_cond_bform (n : List Char) :
    (['['].isPrefixOf (bform n) && [']'].isSuffixOf (bform n)) = true := by
  rw [Bool.and_eq_true]
  constructor
  · rw [List.isPrefixOf_iff_prefix, bform_ne_nil, List.cons_prefix_cons]
    exact ⟨rfl, List.nil_prefix⟩
  · rw [List.isSuffixOf_iff_suffix, bform_ne_nil]
    exact ⟨'[' :: n, by rw [List.cons_append]⟩

theorem scanTokens_nil : scanTokens [] = [] := rfl

theorem scanTokens_brFree : ∀ m : Nat, ∀ t : List Char, t.length ≤ m →
    brFree t = true → scanTokens t = [] := by
  intro m
  induction m using Nat.strong_induction_on with
  | _ m ih =>
    intro t hm hbr
    match t, hm with
    | [], _ => rfl
    | c :: t, hm =>
      simp only [List.length_cons] at hm
      have hm1 : t.length < m := Nat.lt_of_lt_of_le (Nat.lt_succ_self _) hm
      by_cases hc : pyIsSpace c
      · rw [scanTokens, pySplit_ws _ hc]
        exact ih t.length hm1 t le_rfl (brFree_cons.mp hbr).2
      · have hc2 : pyIsSpace c = false := Bool.not_eq_true _ ▸ hc
        rw [scanTokens, pySplit_tok _ hc2,
          List.filter_cons_of_neg (by
            simp [token_cond_false (brFree_cons.mp hbr).1.1])]
        have hdbr : brFree (t.dropWhile (fun d => !pyIsSpace d)) = true := by
          rw [brFree, List.all_eq_true]
          intro d hd
          have : d ∈ t := (List.dropWhile_sublist _).subset hd
          simp [brFree_of_mem (brFree_cons.mp hbr).2 this]
        have hdlen : (t.dropWhile (fun d => !pyIsSpace d)).length ≤ t.length :=
          (List.dropWhile_sublist _).length_le
        exact ih t.length hm1 _ hdlen hdbr

theorem wsFree_bform {n : List Char} (h : wsFree n = true) : wsFree (bform n) = true := by
  rw [bform_ne_nil, wsFree, List.all_eq_true]
  intro c hc
  rcases List.mem_cons.mp hc with hc1 | hc1
  · simp [hc1, pyIsSpace]
  · rcases List.mem_append.mp hc1 with hc2 | hc2
    · simpa using wsFree_mem h hc2
    · simp at hc2
      simp [hc2, pyIsSpace]

theorem isolated_of_cons {s : Seg} {rest : List Seg} (h : isolated (s :: rest) = true) :
    isolated rest = true := by
  cases s with
  | plain a =>
    cases rest with
    | nil => rfl
    | cons s2 rest2 =>
      cases s2 with
      | plain b => exact absurd h (by simp [isolated])
      | hole m =>
        rw [isolated, Bool.and_eq_true] at h
        exact h.2
  | hole n =>
    cases rest with
    | nil => rfl
    | cons s2 rest2 =>
      cases s2 with
      | plain b =>
        rw [isolated, Bool.and_eq_true] at h
        exact h.2
      | hole m => exact absurd h (by simp [isolated])

theorem scanWf_of_cons {s : Seg} {rest : List Seg} (h : scanWf (s :: rest) = true) :
    scanWf rest = true := by
  rw [scanWf, Bool.and_eq_true] at h ⊢
  refine ⟨?_, isolated_of_cons h.2⟩
  rw [List.all_cons, Bool.and_eq_true] at h
  exact h.1.2

theorem scan_render_hole : ∀ {segs : List Seg}, scanWf segs = true →
    ∀ {U : List Char}, U ∈ scanTokens (render segs) → Seg.hole U ∈ segs := by
  intro segs
  induction segs with
  | nil =>
    intro _ U hU
    rw [show render [] = [] from rfl, scanTokens_nil] at hU
    exact absurd hU (List.not_mem_nil U)
  | cons s rest ih =>
    intro h U hU
    have hrest : scanWf rest = true := scanWf_of_cons h
    have hok : segScanOk s = true := by
      rw [scanWf, Bool.and_eq_true, List.all_cons, Bool.and_eq_true] at h
      exact h.1.1
    have hiso : isolated (s :: rest) = true := by
      rw [scanWf, Bool.and_eq_true] at h
      exact h.2
    cases s with
    | plain a =>
      have ha : brFree a = true := hok
      cases rest with
      | nil =>
        rw [render_cons, show renderSeg (Seg.plain a) = a from rfl,
          show render [] = [] from rfl, List.append_nil] at hU
        rw [scanTokens_brFree a.length a le_rfl ha] at hU
        exact absurd hU (List.not_mem_nil U)
      | cons s2 rest2 =>
        cases s2 with
        | plain b => exact absurd hiso (by simp [isolated])
        | hole m =>
          have hws : endsWs a = true := by
            rw [isolated, Bool.and_eq_true] at hiso
            exact hiso.1
          rw [render_cons, show renderSeg (Seg.plain a) = a from rfl] at hU
          rw [scanTokens, pySplit_append_endsWs hws, List.filter_append,
            List.map_append] at hU
          rcases List.mem_append.mp hU with hU1 | hU1
          · rw [show ((pySplit a).filter
                (fun w => ['['].isPrefixOf w && [']'].isSuffixOf w)).map stripBr =
                scanTokens a from rfl,
              scanTokens_brFree a.length a le_rfl ha] at hU1
            exact absurd hU1 (List.not_mem_nil U)
          · exact List.mem_cons_of_mem _ (ih hrest hU1)
    | hole n =>
      rw [segScanOk, Bool.and_eq_true, Bool.and_eq_true] at hok
      have hne : n ≠ [] := by
        intro hnil
        rw [hnil] at hok
        simp [List.isEmpty] at hok
      have hbr : brFree n = true := hok.1.2
      have hwsn : wsFree n = true := hok.2
      have hwsb : wsFree (bform n) = true := wsFree_bform hwsn
      have hbne : bform n ≠ [] := by rw [bform_ne_nil]; exact List.cons_ne_nil _ _
      cases rest with
      | nil =>
        rw [render_cons, show renderSeg (Seg.hole n) = bform n from rfl,
          show render [] = [] from rfl, List.append_nil] at hU
        rw [scanTokens, pySplit_wsFree hwsb hbne] at hU
        simp only [List.filter_cons, token_cond_bform n, if_true, List.filter_nil,
          List.map_cons, List.map_nil, stripBr_bform hne hbr] at hU
        rcases List.mem_cons.mp hU with hU1 | hU1
        · rw [hU1]
          exact List.mem_cons_self _ _
        · exact absurd hU1 (List.not_mem_nil U)
      | cons s2 rest2 =>
        cases s2 with
        | hole m => exact absurd hiso (by simp [isolated])
        | plain a =>
          have hws : startsWs a = true := by
            rw [isolated, Bool.and_eq_true] at hiso
            exact hiso.1
          cases a with
          | nil => exact absurd hws (by simp [startsWs])
          | cons w a2 =>
            have hw : pyIsSpace w = true := hws
            rw [render_cons, show renderSeg (Seg.hole n) = bform n from rfl,
              render_cons, show renderSeg (Seg.plain (w :: a2)) = w :: a2 from rfl,
              List.cons_append] at hU
            rw [scanTokens, pySplit_wsFree_append hwsb hbne hw] at hU
            simp only [List.filter_cons, token_cond_bform n, if_true, List.map_cons,
              stripBr_bform hne hbr] at hU
            have hsp : pySplit (render (Seg.plain (w :: a2) :: rest2)) =
                pySplit (a2 ++ render rest2) := by
              rw [render_cons, show renderSeg (Seg.plain (w :: a2)) = w :: a2 from rfl,
                List.cons_append, pySplit_ws _ hw]
            rcases List.mem_cons.mp hU with hU1 | hU1
            · rw [hU1]
              exact List.mem_cons_self _ _
            · refine List.mem_cons_of_mem _ (ih hrest ?_)
              rw [scanTokens, hsp]
              exact hU1

/-!
Assorted glue lemmas for the claim theorems.
-/

theorem mem_extract_placeholders {d : Docx} {U : List Char} :
    U ∈ extract_placeholders d ↔ ∃ p ∈ d.bodyParagraphs, U ∈ scanTokens p.text := by
  rw [extract_placeholders, List.mem_dedup, List.mem_flatten]
  constructor
  · rintro ⟨l, hl, hU⟩
    rcases List.mem_map.mp hl with ⟨p, hp, rfl⟩
    exact ⟨p, hp, hU⟩
  · rintro ⟨p, hp, hU⟩
    exact ⟨scanTokens p.text, List.mem_map_of_mem _ hp, hU⟩

theorem segsOk_of_scanWf {segs : List Seg} (h : scanWf segs = true) : segsOk segs = true := by
  rw [scanWf, Bool.and_eq_true] at h
  rw [segsOk, List.all_eq_true]
  intro s hs
  have h2 := List.all_eq_true.mp h.1 s hs
  cases s with
  | plain a => exact h2
  | hole n =>
    rw [segScanOk, Bool.and_eq_true, Bool.and_eq_true] at h2
    exact h2.1.2

theorem hole_scanWf_mem {segs : List Seg} {U : List Char} (h : scanWf segs = true)
    (hm : Seg.hole U ∈ segs) :
    U ≠ [] ∧ brFree U = true ∧ wsFree U = true := by
  rw [scanWf, Bool.and_eq_true] at h
  have h2 := List.all_eq_true.mp h.1 _ hm
  rw [segScanOk, Bool.and_eq_true, Bool.and_eq_true] at h2
  refine ⟨?_, h2.1.2, h2.2⟩
  intro hnil
  rw [hnil] at h2
  simp [List.isEmpty] at h2

theorem segsOk_applySegs {es : List (List Char × List Char)} {segs : List Seg}
    (he : entriesOk es = true) (hs : segsOk segs = true) :
    segsOk (applySegs es segs) = true := by
  induction es generalizing segs with
  | nil => exact hs
  | cons kv rest ih =>
    have hv : brFree kv.2 = true := by
      have := (entriesOk_cons.mp he).1
      rw [entryOk, Bool.and_eq_true] at this
      exact this.2
    exact ih (entriesOk_cons.mp he).2 (segsOk_map_applyEntrySeg hs hv)

theorem fillPara_append (es1 es2 : List (List Char × List Char)) (p : Paragraph) :
    fillPara (es1 ++ es2) p = fillPara es2 (fillPara es1 p) :=
  List.foldl_append _ _ _ _

theorem getLast?_dropWhile_of_ne_nil {p : Char → Bool} :
    ∀ {l : List Char}, l.dropWhile p ≠ [] → (l.dropWhile p).getLast? = l.getLast? := by
  intro l
  induction l with
  | nil => intro h; exact absurd rfl h
  | cons c t ih =>
    intro h
    by_cases hc : p c
    · rw [List.dropWhile_cons_of_pos hc] at h ⊢
      rcases ht : t with _ | ⟨d, t2⟩
      · rw [ht] at h
        exact absurd rfl h
      · rw [← ht, ih h, ht, List.getLast?_cons_cons]
    · rw [List.dropWhile_cons_of_neg hc]

theorem stripBr_getLast_not_isBr {t : List Char} {c : Char}
    (h : (stripBr t).getLast? = some c) : isBr c = false := by
  rw [stripBr, List.getLast?_reverse] at h
  have hmatch := List.head?_dropWhile_not isBr (t.dropWhile isBr).reverse
  rw [h] at hmatch
  exact hmatch

theorem stripBr_head_not_isBr {t : List Char} {c : Char}
    (h : (stripBr t).head? = some c) : isBr c = false := by
  rw [stripBr, List.head?_reverse] at h
  have hne : (t.dropWhile isBr).reverse.dropWhile isBr ≠ [] := by
    intro hnil
    rw [hnil] at h
    exact Option.noConfusion h
  rw [getLast?_dropWhile_of_ne_nil hne, List.getLast?_reverse] at h
  have hmatch := List.head?_dropWhile_not isBr t
  rw [h] at hmatch
  exact hmatch

theorem all_isBr_of_stripBr_eq_nil {w : List Char} (h : stripBr w = []) :
    w.all isBr = true := by
  rw [stripBr, List.reverse_eq_nil_iff] at h
  have h2 : ∀ x ∈ (w.dropWhile isBr).reverse, isBr x = true := List.dropWhile_eq_nil_iff.mp h
  rw [List.all_eq_true]
  intro c hc
  rcases hsplit : w.takeWhile isBr ++ w.dropWhile isBr with hs
  have hmem : c ∈ w.takeWhile isBr ++ w.dropWhile isBr := by
    rw [List.takeWhile_append_dropWhile]
    exact hc
  rcases List.mem_append.mp hmem with hc1 | hc1
  · exact List.mem_takeWhile_imp hc1
  · exact h2 c (List.mem_reverse.mpr hc1)

theorem token_nonempty_of_lb {w : List Char} (h : ['['].isPrefixOf w = true) : w ≠ [] := by
  intro hnil
  rw [hnil] at h
  exact Bool.false_ne_true (by simp [List.isPrefixOf] at h)

/-!
Claim theorems.
-/

/-- Claim C1, counterexample: the fill loop of fill_template is not
order independent for arbitrary mappings.  On the template paragraph
[A] with entries A maps-to [B] and B maps-to x, iterating A first
produces x while iterating B first produces [B]: a value that contains
the bracketed form of another key is substituted again by a later
iteration, so permuting the iteration order changes the output. -/
theorem fill_template_order_dependent_cex :
    List.Perm
      [("A".data, "[B]".data), ("B".data, "x".data)]
      [("B".data, "x".data), ("A".data, "[B]".data)] ∧
    fill_template
        { bodyParagraphs := [{ runs := [{ text := "[A]".data, fmt := none }], pPr := 0 }],
          tables := [], headers := [], footers := [], styles := 0 }
        [("A".data, "[B]".data), ("B".data, "x".data)] ≠
      fill_template
        { bodyParagraphs := [{ runs := [{ text := "[A]".data, fmt := none }], pPr := 0 }],
          tables := [], headers := [], footers := [], styles := 0 }
        [("B".data, "x".data), ("A".data, "[B]".data)] :=
  ⟨List.Perm.swap _ _ _, by decide⟩

/-- Claim C1 (amended): if every key and every value of the mapping is
free of bracket characters, the mapping has no duplicate keys, and each
paragraph text decomposes into bracket-free plain stretches and
bracket-free placeholder holes, then permuting the iteration order of
the mapping entries leaves the text of every paragraph of the filled
document unchanged. -/
theorem fill_template_order_independent
    (d : Docx) (es es2 : List (List Char × List Char))
    (hperm : es.Perm es2)
    (hnd : (es.map Prod.fst).Nodup)
    (he : entriesOk es = true)
    (hd : ∀ p ∈ d.bodyParagraphs, ∃ segs, segsOk segs = true ∧ p.text = render segs) :
    (fill_template d es).bodyParagraphs.map Paragraph.text =
      (fill_template d es2).bodyParagraphs.map Paragraph.text := by
  simp only [fill_template, List.map_map]
  refine List.map_congr_left ?_
  intro p hp
  rcases hd p hp with ⟨segs, hs, htext⟩
  show (fillPara es p).text = (fillPara es2 p).text
  rw [fillPara_text, fillPara_text, htext]
  exact fillText_perm hperm hnd hs he

/-- Claim C1, witness: the amended order independence at the scenario
mapping of the spec, applied in both orders. -/
theorem fill_template_order_independent_example :
    (fill_template
        { bodyParagraphs :=
            [{ runs := [{ text := "Insured: [INSURED_NAME] on [DATE_LOSS]".data,
                          fmt := some 1 }], pPr := 2 }],
          tables := [], headers := [], footers := [], styles := 0 }
        [("INSURED_NAME".data, "Jane Doe".data),
         ("DATE_LOSS".data, "2024-01-01".data)]).bodyParagraphs.map Paragraph.text =
      (fill_template
        { bodyParagraphs :=
            [{ runs := [{ text := "Insured: [INSURED_NAME] on [DATE_LOSS]".data,
                          fmt := some 1 }], pPr := 2 }],
          tables := [], headers := [], footers := [], styles := 0 }
        [("DATE_LOSS".data, "2024-01-01".data),
         ("INSURED_NAME".data, "Jane Doe".data)]).bodyParagraphs.map Paragraph.text :=
  fill_template_order_independent _ _ _ (List.Perm.swap _ _ _) (by decide) (by decide)
    (fun p hp => by
      rw [List.mem_singleton] at hp
      subst hp
      exact ⟨[Seg.plain "Insured: ".data, Seg.hole "INSURED_NAME".data,
              Seg.plain " on ".data, Seg.hole "DATE_LOSS".data],
        by decide, by decide⟩)

/-- Claim C7, counterexample: a key whose bracketed form does not occur
in the template text can still change the output, because an earlier
substitution can create an occurrence of it.  Template [A], mapping A
maps-to [B] and B maps-to x: [B] occurs nowhere in the template, yet
removing the key B changes the output from x to [B]. -/
theorem fill_template_inert_key_cex :
    containsSub (bform "B".data) "[A]".data = false ∧
    fill_template
        { bodyParagraphs := [{ runs := [{ text := "[A]".data, fmt := none }], pPr := 0 }],
          tables := [], headers := [], footers := [], styles := 0 }
        [("A".data, "[B]".data), ("B".data, "x".data)] ≠
      fill_template
        { bodyParagraphs := [{ runs := [{ text := "[A]".data, fmt := none }], pPr := 0 }],
          tables := [], headers := [], footers := [], styles := 0 }
        [("A".data, "[B]".data)] := by
  exact ⟨by decide, by decide⟩

/-- Claim C7 (amended): under the bracket regularity conditions of C1
(bracket-free keys and values of the entries before the removed key,
bracket-free decomposable paragraphs), a key k whose bracketed form
[k] occurs in no paragraph of the template has no effect: the filled
document with the entry (k, v) present is equal, byte for byte, to the
filled document with that entry removed. -/
theorem fill_template_inert_key (d : Docx) (es1 es2 : List (List Char × List Char))
    (k v : List Char) (hk : brFree k = true) (he : entriesOk es1 = true)
    (hd : ∀ p ∈ d.bodyParagraphs, ∃ segs, segsOk segs = true ∧ p.text = render segs)
    (habs : ∀ p ∈ d.bodyParagraphs, containsSub (bform k) p.text = false) :
    fill_template d (es1 ++ (k, v) :: es2) = fill_template d (es1 ++ es2) := by
  unfold fill_template
  congr 1
  refine List.map_congr_left ?_
  intro p hp
  rcases hd p hp with ⟨segs, hs, htext⟩
  rw [fillPara_append, fillPara_append]
  have hnohole : Seg.hole k ∉ segs := by
    intro hmem
    have hc := (containsSub_render hk hs).mpr hmem
    rw [← htext, habs p hp] at hc
    exact Bool.false_ne_true hc
  have hq : containsSub (bform k) (fillPara es1 p).text = false := by
    rw [fillPara_text, htext, fillText_render hs he, Bool.eq_false_iff]
    intro hc
    exact hnohole (hole_mem_applySegs
      ((containsSub_render hk (segsOk_applySegs he hs)).mp hc))
  have hstep : fillStep (fillPara es1 p) (k, v) = fillPara es1 p := by
    rw [fillStep, if_neg (by simp [hq])]
  show fillPara es2 (fillStep (fillPara es1 p) (k, v)) = fillPara es2 (fillPara es1 p)
  rw [hstep]

/-- Claim C7, witness: removing an absent bracket-free key from a
regular mapping leaves the filled document unchanged. -/
theorem fill_template_inert_key_example :
    fill_template
        { bodyParagraphs := [{ runs := [{ text := "Hello [A] bye".data, fmt := some 4 }],
                               pPr := 1 }],
          tables := [], headers := [], footers := [], styles := 0 }
        [("A".data, "aa".data), ("B".data, "bb".data)] =
      fill_template
        { bodyParagraphs := [{ runs := [{ text := "Hello [A] bye".data, fmt := some 4 }],
                               pPr := 1 }],
          tables := [], headers := [], footers := [], styles := 0 }
        [("A".data, "aa".data)] :=
  fill_template_inert_key _ [("A".data, "aa".data)] [] "B".data "bb".data
    (by decide) (by decide)
    (fun p hp => by
      rw [List.mem_singleton] at hp
      subst hp
      exact ⟨[Seg.plain "Hello ".data, Seg.hole "A".data, Seg.plain " bye".data],
        by decide, by decide⟩)
    (by decide)

/-- Claim C3, counterexample: a scanned placeholder name absent from
the mapping keys can disappear from the output.  The template token
[[U]] is recorded by the scanner as the name U (strip removes both
bracket pairs), U is not a key of the mapping, yet the mapping key [U]
matches the substring [[U]] and the substitution erases it: no
paragraph of the output contains [U]. -/
theorem fill_can_erase_unmatched_cex :
    "U".data ∈ extract_placeholders
        { bodyParagraphs := [{ runs := [{ text := "[[U]]".data, fmt := none }], pPr := 0 }],
          tables := [], headers := [], footers := [], styles := 0 } ∧
    "U".data ∉ [("[U]".data, "z".data)].map Prod.fst ∧
    ∀ p ∈ (fill_template
        { bodyParagraphs := [{ runs := [{ text := "[[U]]".data, fmt := none }], pPr := 0 }],
          tables := [], headers := [], footers := [], styles := 0 }
        [("[U]".data, "z".data)]).bodyParagraphs,
      containsSub (bform "U".data) p.text = false := by
  exact ⟨by decide, by decide, by decide⟩

/-- Claim C3 (amended): if keys and values of the mapping are bracket
free and every paragraph decomposes into bracket-free plain stretches
and whitespace-isolated nonempty bracket-free holes, then every
placeholder name recorded by extract_placeholders that is not a key of
the mapping still occurs, in bracketed form, in the text of the filled
document. -/
theorem unmatched_placeholder_survives (d : Docx)
    (es : List (List Char × List Char)) (U : List Char)
    (he : entriesOk es = true)
    (hd : ∀ p ∈ d.bodyParagraphs, ∃ segs, scanWf segs = true ∧ p.text = render segs)
    (hU : U ∈ extract_placeholders d)
    (hUk : U ∉ es.map Prod.fst) :
    ∃ p ∈ (fill_template d es).bodyParagraphs, containsSub (bform U) p.text = true := by
  rcases mem_extract_placeholders.mp hU with ⟨p0, hp0, hscan⟩
  rcases hd p0 hp0 with ⟨segs, hwf, htext⟩
  have hhole : Seg.hole U ∈ segs := scan_render_hole hwf (htext ▸ hscan)
  have hinfo := hole_scanWf_mem hwf hhole
  refine ⟨fillPara es p0, List.mem_map_of_mem _ hp0, ?_⟩
  rw [fillPara_text, htext, fillText_render (segsOk_of_scanWf hwf) he]
  have hhole2 : Seg.hole U ∈ applySegs es segs := by
    rw [applySegs_eq_map]
    have happ : applyAllSeg es (Seg.hole U) = Seg.hole U := by
      rw [applyAllSeg_hole, lookupKV_eq_none hUk]
    exact happ ▸ List.mem_map_of_mem _ hhole
  exact (containsSub_render hinfo.2.1
    (segsOk_applySegs he (segsOk_of_scanWf hwf))).mpr hhole2

/-- Claim C3, witness: an unmatched isolated placeholder survives a
regular fill. -/
theorem unmatched_placeholder_survives_example :
    ∃ p ∈ (fill_template
        { bodyParagraphs := [{ runs := [{ text := "name: [U] end".data, fmt := none }],
                               pPr := 0 }],
          tables := [], headers := [], footers := [], styles := 0 }
        [("A".data, "x".data)]).bodyParagraphs,
      containsSub (bform "U".data) p.text = true :=
  unmatched_placeholder_survives _ [("A".data, "x".data)] "U".data (by decide)
    (fun p hp => by
      rw [List.mem_singleton] at hp
      subst hp
      exact ⟨[Seg.plain "name: ".data, Seg.hole "U".data, Seg.plain " end".data],
        by decide, by decide⟩)
    (by decide) (by decide)

/-- Claim C5, counterexample: fill_template does not leave styling
unmodified.  Assigning the substituted text back to a paragraph
replaces all of its runs by a single run with default formatting, so a
paragraph that had two differently formatted runs comes back with one
unformatted run: run-level character styling is lost in every
paragraph in which a substitution fires. -/
theorem fill_template_styling_cex :
    ({ bodyParagraphs := [{ runs := [{ text := "Dear ".data, fmt := some 1 },
                                     { text := "[NAME]".data, fmt := some 2 }],
                            pPr := 0 }],
       tables := [], headers := [], footers := [], styles := 0 } :
        Docx).bodyParagraphs.map (fun p => p.runs.map Run.fmt) = [[some 1, some 2]] ∧
    (fill_template
        { bodyParagraphs := [{ runs := [{ text := "Dear ".data, fmt := some 1 },
                                        { text := "[NAME]".data, fmt := some 2 }],
                               pPr := 0 }],
          tables := [], headers := [], footers := [], styles := 0 }
        [("NAME".data, "Bob".data)]).bodyParagraphs.map (fun p => p.runs.map Run.fmt) =
      [[none]] := by
  exact ⟨by decide, by decide⟩

/-- Claim C5 (amended): fill_template preserves tables, headers,
footers, the document styles part and the paragraph-level properties of
every paragraph, and returns every paragraph in which no bracketed key
of the mapping occurs completely unchanged (runs and formatting
included); only paragraphs in which some substitution fires are
rewritten, and those lose their run structure. -/
theorem fill_template_frame (d : Docx) (es : List (List Char × List Char))
    (p : Paragraph) (_hp : p ∈ d.bodyParagraphs)
    (hnm : ∀ kv ∈ es, containsSub (bform kv.1) p.text = false) :
    (fill_template d es).tables = d.tables ∧
    (fill_template d es).headers = d.headers ∧
    (fill_template d es).footers = d.footers ∧
    (fill_template d es).styles = d.styles ∧
    (fill_template d es).bodyParagraphs.map Paragraph.pPr =
      d.bodyParagraphs.map Paragraph.pPr ∧
    fillPara es p = p := by
  refine ⟨rfl, rfl, rfl, rfl, ?_, fillPara_of_no_match hnm⟩
  simp only [fill_template, List.map_map]
  exact List.map_congr_left fun q _ => fillPara_pPr es q

/-- Claim C5, witness: the frame facts at a concrete document whose
single paragraph contains no mapping key. -/
theorem fill_template_frame_example :
    (fill_template
        { bodyParagraphs := [{ runs := [{ text := "plain text".data, fmt := some 9 }],
                               pPr := 3 }],
          tables := [[[{ runs := [], pPr := 8 }]]], headers := [], footers := [],
          styles := 5 }
        [("NAME".data, "Bob".data)]).tables =
      [[[{ runs := [], pPr := 8 }]]] ∧
    (fill_template
        { bodyParagraphs := [{ runs := [{ text := "plain text".data, fmt := some 9 }],
                               pPr := 3 }],
          tables := [[[{ runs := [], pPr := 8 }]]], headers := [], footers := [],
          styles := 5 }
        [("NAME".data, "Bob".data)]).headers = [] ∧
    (fill_template
        { bodyParagraphs := [{ runs := [{ text := "plain text".data, fmt := some 9 }],
                               pPr := 3 }],
          tables := [[[{ runs := [], pPr := 8 }]]], headers := [], footers := [],
          styles := 5 }
        [("NAME".data, "Bob".data)]).footers = [] ∧
    (fill_template
        { bodyParagraphs := [{ runs := [{ text := "plain text".data, fmt := some 9 }],
                               pPr := 3 }],
          tables := [[[{ runs := [], pPr := 8 }]]], headers := [], footers := [],
          styles := 5 }
        [("NAME".data, "Bob".data)]).styles = 5 ∧
    (fill_template
        { bodyParagraphs := [{ runs := [{ text := "plain text".data, fmt := some 9 }],
                               pPr := 3 }],
          tables := [[[{ runs := [], pPr := 8 }]]], headers := [], footers := [],
          styles := 5 }
        [("NAME".data, "Bob".data)]).bodyParagraphs.map Paragraph.pPr = [3] ∧
    fillPara [("NAME".data, "Bob".data)]
        { runs := [{ text := "plain text".data, fmt := some 9 }], pPr := 3 } =
      { runs := [{ text := "plain text".data, fmt := some 9 }], pPr := 3 } :=
  fill_template_frame
    { bodyParagraphs := [{ runs := [{ text := "plain text".data, fmt := some 9 }],
                           pPr := 3 }],
      tables := [[[{ runs := [], pPr := 8 }]]], headers := [], footers := [],
      styles := 5 }
    [("NAME".data, "Bob".data)]
    { runs := [{ text := "plain text".data, fmt := some 9 }], pPr := 3 }
    (by decide) (by decide)

/-- Claim C6, counterexample: the scanner does not strip exactly one
bracket pair.  For the token [[X]] the claim predicts the recorded name
[X], but word.strip removes every leading and trailing bracket
character, so the code records X and the name [X] is never recorded. -/
theorem extract_placeholders_strip_cex :
    "X".data ∈ extract_placeholders
        { bodyParagraphs := [{ runs := [{ text := "[[X]]".data, fmt := none }], pPr := 0 }],
          tables := [], headers := [], footers := [], styles := 0 } ∧
    "[X]".data ∉ extract_placeholders
        { bodyParagraphs := [{ runs := [{ text := "[[X]]".data, fmt := none }], pPr := 0 }],
          tables := [], headers := [], footers := [], styles := 0 } := by
  exact ⟨by decide, by decide⟩

/-- Claim C6 (amended): for every whitespace-delimited token w of a
body paragraph that begins with a left bracket and ends with a right
bracket, the scanner records exactly the name stripBr w, the token with
ALL leading and trailing bracket characters stripped: that name is an
element of extract_placeholders, it never starts or ends with a bracket
character, and conversely every recorded name arises this way from some
such token. -/
theorem extract_placeholders_name_spec (d : Docx) (w : List Char) (p : Paragraph)
    (hp : p ∈ d.bodyParagraphs) (hw : w ∈ pySplit p.text)
    (h1 : ['['].isPrefixOf w = true) (h2 : [']'].isSuffixOf w = true) :
    stripBr w ∈ extract_placeholders d ∧
    (∀ c, (stripBr w).head? = some c → isBr c = false) ∧
    (∀ c, (stripBr w).getLast? = some c → isBr c = false) ∧
    (∀ U ∈ extract_placeholders d,
      ∃ q ∈ d.bodyParagraphs, ∃ v ∈ pySplit q.text,
        ['['].isPrefixOf v = true ∧ [']'].isSuffixOf v = true ∧ U = stripBr v) := by
  refine ⟨?_, fun c hc => stripBr_head_not_isBr hc,
    fun c hc => stripBr_getLast_not_isBr hc, ?_⟩
  · refine mem_extract_placeholders.mpr ⟨p, hp, ?_⟩
    rw [scanTokens]
    refine List.mem_map_of_mem _ (List.mem_filter.mpr ⟨hw, ?_⟩)
    rw [Bool.and_eq_true]
    exact ⟨h1, h2⟩
  · intro U hU
    rcases mem_extract_placeholders.mp hU with ⟨q, hq, hscan⟩
    rw [scanTokens] at hscan
    rcases List.mem_map.mp hscan with ⟨v, hv, hstrip⟩
    rcases List.mem_filter.mp hv with ⟨hvsplit, hcond⟩
    rw [Bool.and_eq_true] at hcond
    exact ⟨q, hq, v, hvsplit, hcond.1, hcond.2, hstrip.symm⟩

/-- Claim C6, witness: at a concrete template containing the token
[[REF]], the scanner records the fully stripped name, with the
bracket-free ends and the converse characterization. -/
theorem extract_placeholders_name_spec_example :
    stripBr "[[REF]]".data ∈ extract_placeholders
        { bodyParagraphs := [{ runs := [{ text := "see [[REF]] ok".data, fmt := none }],
                               pPr := 0 }],
          tables := [], headers := [], footers := [], styles := 0 } ∧
    (∀ c, (stripBr "[[REF]]".data).head? = some c → isBr c = false) ∧
    (∀ c, (stripBr "[[REF]]".data).getLast? = some c → isBr c = false) ∧
    (∀ U ∈ extract_placeholders
        ({ bodyParagraphs := [{ runs := [{ text := "see [[REF]] ok".data, fmt := none }],
                                pPr := 0 }],
           tables := [], headers := [], footers := [], styles := 0 } : Docx),
      ∃ q ∈ ({ bodyParagraphs := [{ runs := [{ text := "see [[REF]] ok".data, fmt := none }],
                                    pPr := 0 }],
               tables := [], headers := [], footers := [], styles := 0 } : Docx).bodyParagraphs,
        ∃ v ∈ pySplit q.text,
          ['['].isPrefixOf v = true ∧ [']'].isSuffixOf v = true ∧ U = stripBr v) :=
  extract_placeholders_name_spec
    { bodyParagraphs := [{ runs := [{ text := "see [[REF]] ok".data, fmt := none }],
                           pPr := 0 }],
      tables := [], headers := [], footers := [], styles := 0 }
    "[[REF]]".data
    { runs := [{ text := "see [[REF]] ok".data, fmt := none }], pPr := 0 }
    (by decide) (by decide) (by decide) (by decide)

/-- Claim C8, counterexample: the scanner can record the empty string
as a placeholder name.  The whitespace-delimited token [] starts with a
left bracket and ends with a right bracket, and stripping its brackets
leaves the empty name, which is added to the returned set. -/
theorem extract_placeholders_empty_name_cex :
    ([] : List Char) ∈ extract_placeholders
        { bodyParagraphs := [{ runs := [{ text := "fill [] here".data, fmt := none }],
                               pPr := 0 }],
          tables := [], headers := [], footers := [], styles := 0 } := by
  decide

/-- Claim C8 (amended): the recorded name is empty exactly when its
source token consists entirely of bracket characters; whenever the
empty name is recorded, some whitespace-delimited token of a body
paragraph is a nonempty all-bracket token delimited by brackets. -/
theorem extract_placeholders_empty_name_source (d : Docx)
    (h : ([] : List Char) ∈ extract_placeholders d) :
    ∃ p ∈ d.bodyParagraphs, ∃ w ∈ pySplit p.text,
      w ≠ [] ∧ w.all isBr = true ∧
      ['['].isPrefixOf w = true ∧ [']'].isSuffixOf w = true := by
  rcases mem_extract_placeholders.mp h with ⟨p, hp, hscan⟩
  rw [scanTokens] at hscan
  rcases List.mem_map.mp hscan with ⟨w, hw, hstrip⟩
  rcases List.mem_filter.mp hw with ⟨hwsplit, hcond⟩
  rw [Bool.and_eq_true] at hcond
  exact ⟨p, hp, w, hwsplit, token_nonempty_of_lb hcond.1,
    all_isBr_of_stripBr_eq_nil hstrip, hcond.1, hcond.2⟩

/-- Claim C8, witness: the all-bracket source token exists for a
concrete template containing the token []. -/
theorem extract_placeholders_empty_name_source_example :
    ∃ p ∈ ({ bodyParagraphs := [{ runs := [{ text := "fill [] here".data, fmt := none }],
                                  pPr := 0 }],
             tables := [], headers := [], footers := [], styles := 0 } : Docx).bodyParagraphs,
      ∃ w ∈ pySplit p.text,
        w ≠ [] ∧ w.all isBr = true ∧
        ['['].isPrefixOf w = true ∧ [']'].isSuffixOf w = true :=
  extract_placeholders_empty_name_source
    { bodyParagraphs := [{ runs := [{ text := "fill [] here".data, fmt := none }],
                           pPr := 0 }],
      tables := [], headers := [], footers := [], styles := 0 }
    (by decide)

/-- Claim C10: the scanner and the filler act on body paragraphs only.
extract_placeholders is unchanged under any replacement of the tables,
headers, footers and styles of the document (so a bracketed token in
those regions is never reported), and fill_template returns the
tables, headers and footers fields of its input unchanged (so nothing
in those regions is ever substituted). -/
theorem scan_and_fill_body_only (d : Docx) (es : List (List Char × List Char))
    (tab : List (List (List Paragraph))) (hdr ftr : List Paragraph) (sty : Nat) :
    (fill_template d es).tables = d.tables ∧
    (fill_template d es).headers = d.headers ∧
    (fill_template d es).footers = d.footers ∧
    extract_placeholders
        { d with tables := tab, headers := hdr, footers := ftr, styles := sty } =
      extract_placeholders d :=
  ⟨rfl, rfl, rfl, rfl⟩

theorem call_llm_empty_of_fails (parse : List Char → Option (List (List Char × List Char)))
    (service : List Char → HttpOutcome) (pdf_text : List Char)
    (placeholders : List (List Char))
    (h : outcomeFails parse (service (makePrompt placeholders pdf_text))) :
    call_llm parse service pdf_text placeholders = [] := by
  unfold call_llm
  rcases hout : service (makePrompt placeholders pdf_text) with _ | ⟨status, body⟩
  · rfl
  · rw [hout] at h
    rw [outcomeFails] at h
    dsimp only
    by_cases h4 : 400 ≤ status
    · rw [if_pos h4]
    · rw [if_neg h4]
      rcases h with h | h | ⟨b, hb, hc⟩ | ⟨b, c, hb, hc, hp⟩
      · exact absurd h h4
      · rw [h]
      · rw [hb]
        dsimp only
        rw [hc]
      · rw [hb]
        dsimp only
        rw [hc]
        dsimp only
        rw [hp]
        rfl

/-- Claim C4: on every failure condition of the HTTP exchange, namely a
transport-level failure, a non-success status (raise_for_status raises
at 400 and above), a response body that is not decodable JSON, a body
lacking the expected choices, message or content field, or completion
content that json.loads cannot parse, call_llm returns the empty
mapping.  The function is total (every exception path is caught) and
never returns a partially built mapping: the parse either yields the
whole object or nothing. -/
theorem call_llm_empty_on_failure (parse : List Char → Option (List (List Char × List Char)))
    (service : List Char → HttpOutcome) (pdf_text : List Char)
    (placeholders : List (List Char))
    (h : outcomeFails parse (service (makePrompt placeholders pdf_text))) :
    call_llm parse service pdf_text placeholders = [] :=
  call_llm_empty_of_fails parse service pdf_text placeholders h

/-- Claim C4, witness: a completion service answering HTTP 401 with a
well-formed body makes call_llm return the empty mapping. -/
theorem call_llm_empty_on_failure_example :
    outcomeFails (fun _ => some [("DATE_LOSS".data, "2024-11-13".data)])
      ((fun _ => HttpOutcome.response 401
          (some { choices := some [{ message := some { content := some "x".data } }] }))
        (makePrompt ["DATE_LOSS".data] "report text".data)) ∧
    call_llm (fun _ => some [("DATE_LOSS".data, "2024-11-13".data)])
      (fun _ => HttpOutcome.response 401
        (some { choices := some [{ message := some { content := some "x".data } }] }))
      "report text".data ["DATE_LOSS".data] = [] :=
  ⟨Or.inl (by decide),
    call_llm_empty_on_failure _ _ _ _ (Or.inl (by decide))⟩

/-- Claim C2: when the completion service fails on every call, so that
the resolver produces the empty mapping, the pipeline substitutes the
constant fallback mapping mock_data unconditionally and its final
output document equals fill_template applied to the template and
mock_data; there is no partial merge of resolver output and fallback. -/
theorem pipeline_fallback_on_total_failure
    (parse : List Char → Option (List (List Char × List Char)))
    (service : List Char → HttpOutcome) (pdf_text : List Char) (template : Docx)
    (h : ∀ prompt, outcomeFails parse (service prompt)) :
    runPipeline parse service pdf_text template = fill_template template mock_data := by
  show fill_template template
      (if call_llm parse service pdf_text (extract_placeholders template) = []
       then mock_data
       else call_llm parse service pdf_text (extract_placeholders template)) =
    fill_template template mock_data
  rw [call_llm_empty_of_fails parse service pdf_text (extract_placeholders template) (h _)]
  rw [if_pos rfl]

/-- Claim C2, witness: a stub service erroring on every call makes the
pipeline output the template filled with mock_data. -/
theorem pipeline_fallback_on_total_failure_example :
    runPipeline (fun _ => none) (fun _ => HttpOutcome.transportError) "scanned".data
        { bodyParagraphs := [{ runs := [{ text := "Ins: [INSURED_NAME]".data, fmt := none }],
                               pPr := 0 }],
          tables := [], headers := [], footers := [], styles := 0 } =
      fill_template
        { bodyParagraphs := [{ runs := [{ text := "Ins: [INSURED_NAME]".data, fmt := none }],
                               pPr := 0 }],
          tables := [], headers := [], footers := [], styles := 0 }
        mock_data :=
  pipeline_fallback_on_total_failure _ _ _ _ (fun _ => trivial)

/-- Claim C9: the instruction call_llm builds contains only the first
6000 characters of the extracted text; the prompt built from any text
equals the prompt built from its 6000-character prefix, so characters
beyond the cap can never appear in, or otherwise influence, the
constructed instruction. -/
theorem call_llm_prompt_first_6000 (placeholders : List (List Char)) (pdf_text : List Char) :
    makePrompt placeholders pdf_text = makePrompt placeholders (pdf_text.take 6000) := by
  unfold makePrompt
  rw [List.take_take, Nat.min_self]

end GLR
